import Mathlib

/-!
Verification of the `llringbuff` ring buffer (`src/ring_buffer.rs`).

The Rust type `RingBuffer<T: Copy, const N: usize>` keeps a raw storage
block of `N` slots together with raw `head`/`tail` pointers into it and an
`is_empty` flag.  Here pointers into the storage block are modelled as
element indices measured from the start of the block (the offset in
elements from `buffer`), which is faithful whenever the element stride is
positive, and the storage itself as a total function from indices to
values.  Machine integers (`usize`/`isize`) are modelled as `Nat`/`Int`
with the 64-bit bounds made explicit where the source checks them.
-/

namespace LLRingBuff

/-- Error enum `RingBufferError<T>` from `src/ring_buffer.rs`. -/
inductive RingBufferError (α : Type) where
  | InitializationLayoutError
  | InitializationAllocationError
  | OverflowError (value : α)
  deriving DecidableEq, Repr

/-- State of `RingBuffer<T, N>`: the storage block (`buffer`), the
`is_empty` flag, and the `head`/`tail` pointers as element indices.
The capacity `N` is passed to each operation, mirroring the const
generic parameter. -/
structure RingBuffer (α : Type) where
  buf : Nat → α
  is_empty : Bool
  head : Nat
  tail : Nat

variable {α : Type}

/-- `RingBuffer::next_pointer_value`: computes `buffer.offset(N-1)` as the
last valid slot and advances the pointer by one, wrapping to the start of
the buffer when the advanced pointer would pass the last slot.  The
pointer comparison is on signed (`isize`) offsets, hence the `Int`
arithmetic. -/
def next_pointer_value (N : Nat) (i : Nat) : Nat :=
  if (i : Int) + 1 > (N : Int) - 1 then 0 else i + 1

/-- `RingBuffer::is_overflow`: full means not empty and `tail == head`. -/
def is_overflow (rb : RingBuffer α) : Bool :=
  !rb.is_empty && (rb.tail == rb.head)

/-- `RingBuffer::push_value`.  The Rust method mutates `&mut self` and
returns `Result<(), RingBufferError<T>>`; here it returns the result
together with the post-state. -/
def push_value (N : Nat) (rb : RingBuffer α) (value : α) :
    Except (RingBufferError α) Unit × RingBuffer α :=
  if is_overflow rb then
    (Except.error (RingBufferError.OverflowError value), rb)
  else
    (Except.ok (),
      { buf := fun i => if i = rb.tail then value else rb.buf i
        is_empty := false
        head := rb.head
        tail := next_pointer_value N rb.tail })

/-- `RingBuffer::next_value`: reads the value at `head`, advances `head`,
and raises the `is_empty` flag when the advanced `head` meets `tail`. -/
def next_value (N : Nat) (rb : RingBuffer α) : Option α × RingBuffer α :=
  if !rb.is_empty then
    (some (rb.buf rb.head),
      { rb with
        head := next_pointer_value N rb.head
        is_empty := if next_pointer_value N rb.head = rb.tail then true
                    else rb.is_empty })
  else
    (none, rb)

/-- `usize::next_power_of_two` (smallest power of two that is `≥ n`;
Rust defines it to return `1` for `0`), computed with a structurally
decreasing fuel so that it evaluates by kernel reduction. -/
def next_power_of_two_go : Nat → Nat → Nat → Nat
  | 0, _, power => power
  | fuel + 1, n, power =>
    if power < n then next_power_of_two_go fuel n (power * 2) else power

/-- Rust `usize::next_power_of_two` for a 64-bit `usize`. -/
def next_power_of_two (n : Nat) : Nat := next_power_of_two_go n n 1

/-- Rust `usize::checked_next_power_of_two` for a 64-bit `usize`:
`none` exactly when every power of two `≥ n` overflows `usize`,
i.e. when `n > 2^63`. -/
def checked_next_power_of_two (n : Nat) : Option Nat :=
  if n ≤ 2 ^ 63 then some (next_power_of_two n) else none

/-- `std::alloc::Layout`: the size/alignment pair handed to the
allocator. -/
structure Layout where
  size : Nat
  align : Nat
  deriving DecidableEq, Repr

/-- `std::alloc::Layout::from_size_align`: requires the alignment to be a
power of two and the size, rounded up to the alignment, not to overflow
`isize` (64-bit: `size + (align - 1) ≤ 2^63 - 1`). -/
def layout_from_size_align (size align : Nat) : Option Layout :=
  if 0 < align ∧ align &&& (align - 1) = 0 ∧ size + (align - 1) ≤ 2 ^ 63 - 1
  then some ⟨size, align⟩ else none

/-- The layout computation of `RingBuffer::new`: the element stride is
`size_of::<T>().checked_next_power_of_two()` and the layout handed to
`alloc_zeroed` is `Layout::from_size_align(N, stride)` — the size field
the source passes is `N`, the capacity itself. -/
def new_layout (sizeT N : Nat) : Option Layout :=
  match checked_next_power_of_two sizeT with
  | none => none
  | some element_size => layout_from_size_align N element_size

/-- The fresh state produced by `RingBuffer::new` on success:
`head` and `tail` both at the start of the (zeroed) storage, `is_empty`
set.  `z` is the value whose bit pattern is all zeroes. -/
def RingBuffer.init (z : α) : RingBuffer α :=
  { buf := fun _ => z, is_empty := true, head := 0, tail := 0 }

/-- `RingBuffer::new`, with the allocator modelled as succeeding
(`alloc_zeroed` returning null is an environment failure outside the
model, so `InitializationAllocationError` is never produced here).
Returns the layout passed to the allocator together with the fresh
state. -/
def ring_buffer_new (sizeT N : Nat) (z : α) :
    Except (RingBufferError α) (Layout × RingBuffer α) :=
  match new_layout sizeT N with
  | none => Except.error RingBufferError.InitializationLayoutError
  | some l => Except.ok (l, RingBuffer.init z)

/-- Push a list of values left to right, stopping with `none` at the
first push that reports an overflow. -/
def pushSeq (N : Nat) : RingBuffer α → List α → Option (RingBuffer α)
  | rb, [] => some rb
  | rb, v :: vs =>
    match push_value N rb v with
    | (Except.ok _, rb2) => pushSeq N rb2 vs
    | (Except.error _, _) => none

/-- Call `next_value` `k` times, collecting the returned options. -/
def popN (N : Nat) : RingBuffer α → Nat → List (Option α) × RingBuffer α
  | rb, 0 => ([], rb)
  | rb, k + 1 =>
    let r := next_value N rb
    let rest := popN N r.2 k
    (r.1 :: rest.1, rest.2)

/-- Intermediate states of the capacity-4 reuse scenario: after pushing
32, 2, 43, 46 into a fresh buffer. -/
def c9s4 : RingBuffer Nat :=
  (pushSeq 4 (RingBuffer.init 0) [32, 2, 43, 46]).getD (RingBuffer.init 0)

/-- After additionally popping twice. -/
def c9s6 : RingBuffer Nat := (popN 4 c9s4 2).2

/-- After additionally pushing 99. -/
def c9s7 : RingBuffer Nat := (push_value 4 c9s6 99).2

/-- After popping twice more. -/
def c9s8 : RingBuffer Nat := (popN 4 c9s7 2).2

/-- Index `j` slots past `h`, wrapping once at capacity `N`. -/
def wrapIdx (N h j : Nat) : Nat := if h + j < N then h + j else h + j - N

/-- Occupied count of a state: `0` when the empty flag is set, the
head-to-tail distance otherwise (with `head = tail` meaning full). -/
def occ (N : Nat) (rb : RingBuffer α) : Nat :=
  if rb.is_empty then 0
  else if rb.head < rb.tail then rb.tail - rb.head
  else N - rb.head + rb.tail

/-- Abstraction of a state to the list of stored values, oldest first. -/
def toList (N : Nat) (rb : RingBuffer α) : List α :=
  (List.range (occ N rb)).map (fun j => rb.buf (wrapIdx N rb.head j))

/-- Structural invariant of reachable states: `head` and `tail` are valid
slot indices and the empty flag implies the pointers coincide. -/
def Inv (N : Nat) (rb : RingBuffer α) : Prop :=
  rb.head < N ∧ rb.tail < N ∧ (rb.is_empty = true → rb.head = rb.tail)

/-- The invariants named by the specification: the occupied count is
bounded by the capacity, the pointers are valid positions, the empty
flag tracks emptiness, and the full predicate (`is_overflow`) holds
exactly at occupancy `N`. -/
def SpecInv (N : Nat) (rb : RingBuffer α) : Prop :=
  occ N rb ≤ N ∧ rb.head < N ∧ rb.tail < N ∧
    (rb.is_empty = true ↔ occ N rb = 0) ∧
    (is_overflow rb = true ↔ occ N rb = N)

lemma next_pointer_value_eq (N i : Nat) :
    next_pointer_value N i = if N ≤ i + 1 then 0 else i + 1 := by
  unfold next_pointer_value
  by_cases h : (i : Int) + 1 > (N : Int) - 1
  · rw [if_pos h, if_pos (by omega)]
  · rw [if_neg h, if_neg (by omega)]

lemma occ_le (N : Nat) (rb : RingBuffer α) (hInv : Inv N rb) :
    occ N rb ≤ N := by
  obtain ⟨hh, ht, he⟩ := hInv
  unfold occ
  split_ifs <;> omega

lemma occ_pos_of_not_empty (N : Nat) (rb : RingBuffer α) (hInv : Inv N rb)
    (h : rb.is_empty = false) : 0 < occ N rb := by
  obtain ⟨hh, ht, he⟩ := hInv
  unfold occ
  rw [h]
  simp only [Bool.false_eq_true, if_false]
  split_ifs <;> omega

lemma empty_of_occ_zero (N : Nat) (rb : RingBuffer α) (hInv : Inv N rb)
    (h : occ N rb = 0) : rb.is_empty = true := by
  by_cases hb : rb.is_empty = true
  · exact hb
  · have := occ_pos_of_not_empty N rb hInv (by simpa using hb)
    omega

lemma overflow_iff (N : Nat) (rb : RingBuffer α) (hInv : Inv N rb) :
    is_overflow rb = true ↔ occ N rb = N := by
  obtain ⟨hh, ht, he⟩ := hInv
  rcases rb with ⟨buf, e, h, t⟩
  simp only at hh ht he
  cases e
  · simp only [is_overflow, occ, Bool.not_false, Bool.true_and, beq_iff_eq]
    simp only [Bool.false_eq_true, if_false]
    split_ifs <;> constructor <;> intro <;> omega
  · have hocc : occ N (⟨buf, true, h, t⟩ : RingBuffer α) = 0 := by simp [occ]
    simp only [is_overflow, Bool.not_true, Bool.false_and, hocc]
    constructor
    · intro hx; exact absurd hx (by simp)
    · intro hx; exfalso; omega

lemma tail_eq_wrap (N : Nat) (rb : RingBuffer α) (hInv : Inv N rb) :
    rb.tail = wrapIdx N rb.head (occ N rb) := by
  obtain ⟨hh, ht, he⟩ := hInv
  rcases rb with ⟨buf, e, h, t⟩
  simp only at hh ht he
  cases e
  · simp only [occ, wrapIdx, Bool.false_eq_true, if_false]
    split_ifs <;> omega
  · have het : h = t := he rfl
    have hocc : occ N (⟨buf, true, h, t⟩ : RingBuffer α) = 0 := by simp [occ]
    rw [hocc]
    simp only [wrapIdx]
    split_ifs <;> omega

lemma wrapIdx_inj (N h : Nat) (_hh : h < N) {j k : Nat} (hj : j < N)
    (hk : k < N) (he : wrapIdx N h j = wrapIdx N h k) : j = k := by
  unfold wrapIdx at he
  split_ifs at he <;> omega

lemma map_range_congr {β : Type} (n : Nat) (f g : Nat → β)
    (h : ∀ j, j < n → f j = g j) :
    (List.range n).map f = (List.range n).map g := by
  induction n with
  | zero => simp
  | succ m ih =>
    rw [List.range_succ, List.map_append, List.map_append,
      ih (fun j hj => h j (by omega))]
    simp only [List.map_cons, List.map_nil]
    rw [h m (by omega)]

lemma toList_length (N : Nat) (rb : RingBuffer α) :
    (toList N rb).length = occ N rb := by
  simp [toList]

lemma push_value_not_full (N : Nat) (rb : RingBuffer α) (v : α)
    (h : is_overflow rb = false) :
    push_value N rb v =
      (Except.ok (),
        { buf := fun i => if i = rb.tail then v else rb.buf i
          is_empty := false
          head := rb.head
          tail := next_pointer_value N rb.tail }) := by
  simp [push_value, h]

lemma not_full_of_occ_lt (N : Nat) (rb : RingBuffer α) (hInv : Inv N rb)
    (hocc : occ N rb < N) : is_overflow rb = false := by
  by_cases h : is_overflow rb = true
  · rw [(overflow_iff N rb hInv).mp h] at hocc
    omega
  · simpa using h

lemma occ_push_state (N : Nat) (buf : Nat → α) (e : Bool) (h t : Nat) (v : α)
    (hh : h < N) (ht : t < N) (he : e = true → h = t) :
    occ N (⟨fun i => if i = t then v else buf i, false, h,
      next_pointer_value N t⟩ : RingBuffer α) =
      occ N (⟨buf, e, h, t⟩ : RingBuffer α) + 1 ∨
    occ N (⟨buf, e, h, t⟩ : RingBuffer α) = N := by
  cases e
  · simp only [occ, next_pointer_value_eq, Bool.false_eq_true, if_false]
    split_ifs <;> omega
  · have het : h = t := he rfl
    have h0 : occ N (⟨buf, true, h, t⟩ : RingBuffer α) = 0 := by simp [occ]
    rw [h0]
    simp only [occ, next_pointer_value_eq, Bool.false_eq_true, if_false]
    split_ifs <;> omega

lemma push_ok (N : Nat) (rb : RingBuffer α) (v : α) (hInv : Inv N rb)
    (hocc : occ N rb < N) :
    (push_value N rb v).1 = Except.ok () ∧
    Inv N (push_value N rb v).2 ∧
    occ N (push_value N rb v).2 = occ N rb + 1 ∧
    toList N (push_value N rb v).2 = toList N rb ++ [v] := by
  have hov := not_full_of_occ_lt N rb hInv hocc
  have hw := tail_eq_wrap N rb hInv
  obtain ⟨hh, ht, he⟩ := hInv
  rcases rb with ⟨buf, e, h, t⟩
  simp only at hh ht he hw hov hocc ⊢
  rw [push_value_not_full N ⟨buf, e, h, t⟩ v hov]
  have ht2 : next_pointer_value N t < N := by
    rw [next_pointer_value_eq]
    split_ifs <;> omega
  have hocc2 :
      occ N (⟨fun i => if i = t then v else buf i, false, h,
        next_pointer_value N t⟩ : RingBuffer α) =
        occ N (⟨buf, e, h, t⟩ : RingBuffer α) + 1 := by
    rcases occ_push_state N buf e h t v hh ht he with hcase | hcase
    · exact hcase
    · omega
  refine ⟨rfl, ⟨hh, ht2, ?_⟩, hocc2, ?_⟩
  · intro hx
    exact absurd hx (by simp)
  · have e2 : (if wrapIdx N h (occ N (⟨buf, e, h, t⟩ : RingBuffer α)) = t
        then v
        else buf (wrapIdx N h (occ N (⟨buf, e, h, t⟩ : RingBuffer α)))) = v := by
      rw [← hw, if_pos rfl]
    have e1 : (List.range (occ N (⟨buf, e, h, t⟩ : RingBuffer α))).map
        (fun j => if wrapIdx N h j = t then v else buf (wrapIdx N h j)) =
        (List.range (occ N (⟨buf, e, h, t⟩ : RingBuffer α))).map
          (fun j => buf (wrapIdx N h j)) := by
      refine map_range_congr _ _ _ (fun j hj => ?_)
      have hne : wrapIdx N h j ≠ t := by
        intro hcol
        have hj2 : j = occ N (⟨buf, e, h, t⟩ : RingBuffer α) :=
          wrapIdx_inj N h hh (by omega) (by omega) (hcol.trans hw)
        omega
      exact if_neg hne
    show (List.range (occ N (⟨fun i => if i = t then v else buf i,
        false, h, next_pointer_value N t⟩ : RingBuffer α))).map
        (fun j => if wrapIdx N h j = t then v else buf (wrapIdx N h j)) =
      (List.range (occ N (⟨buf, e, h, t⟩ : RingBuffer α))).map
        (fun j => buf (wrapIdx N h j)) ++ [v]
    rw [hocc2, List.range_succ, List.map_append, e1]
    simp only [List.map_cons, List.map_nil]
    rw [e2]

lemma next_value_not_empty (N : Nat) (rb : RingBuffer α)
    (h : rb.is_empty = false) :
    next_value N rb =
      (some (rb.buf rb.head),
        { rb with
          head := next_pointer_value N rb.head
          is_empty := if next_pointer_value N rb.head = rb.tail then true
                      else rb.is_empty }) := by
  simp [next_value, h]

lemma next_value_of_empty (N : Nat) (rb : RingBuffer α)
    (h : rb.is_empty = true) : next_value N rb = (none, rb) := by
  simp [next_value, h]

lemma npv_cases (N h : Nat) :
    (N ≤ h + 1 ∧ next_pointer_value N h = 0) ∨
      (h + 1 < N ∧ next_pointer_value N h = h + 1) := by
  rw [next_pointer_value_eq]
  split_ifs with hs
  · exact Or.inl ⟨hs, rfl⟩
  · exact Or.inr ⟨by omega, rfl⟩

lemma occ_flag (N : Nat) (buf2 : Nat → α) (h2 t : Nat) :
    occ N (⟨buf2, (if h2 = t then true else false), h2, t⟩ : RingBuffer α) =
      if h2 = t then 0 else occ N (⟨buf2, false, h2, t⟩ : RingBuffer α) := by
  by_cases hq : h2 = t
  · rw [if_pos hq, if_pos hq]
    simp [occ]
  · rw [if_neg hq, if_neg hq]

lemma occ_pop_state (N : Nat) (buf buf2 : Nat → α) (h t : Nat)
    (hh : h < N) (ht : t < N) :
    occ N (⟨buf2, (if next_pointer_value N h = t then true else false),
      next_pointer_value N h, t⟩ : RingBuffer α) =
      occ N (⟨buf, false, h, t⟩ : RingBuffer α) - 1 := by
  rw [occ_flag]
  simp only [occ, Bool.false_eq_true, if_false]
  rcases npv_cases N h with ⟨hb, hv⟩ | ⟨hb, hv⟩ <;> rw [hv] <;>
    split_ifs <;> omega

lemma wrapIdx_succ (N h j : Nat) (hh : h < N) (hj : j < N) :
    wrapIdx N h (j + 1) = wrapIdx N (next_pointer_value N h) j := by
  rw [next_pointer_value_eq]
  unfold wrapIdx
  split_ifs <;> omega

lemma wrapIdx_zero (N h : Nat) (hh : h < N) : wrapIdx N h 0 = h := by
  unfold wrapIdx
  split_ifs <;> omega

lemma pop_ok (N : Nat) (rb : RingBuffer α) (hInv : Inv N rb)
    (hocc : 0 < occ N rb) :
    (next_value N rb).1 = some (rb.buf rb.head) ∧
    Inv N (next_value N rb).2 ∧
    occ N (next_value N rb).2 = occ N rb - 1 ∧
    toList N rb = rb.buf rb.head :: toList N (next_value N rb).2 := by
  obtain ⟨hh, ht, he⟩ := hInv
  rcases rb with ⟨buf, e, h, t⟩
  simp only at hh ht he hocc ⊢
  cases e
  · rw [next_value_not_empty N ⟨buf, false, h, t⟩ rfl]
    have hh2 : next_pointer_value N h < N := by
      rw [next_pointer_value_eq]
      split_ifs <;> omega
    have hoccp := occ_pop_state N buf buf h t hh ht
    refine ⟨rfl, ⟨hh2, ht, ?_⟩, hoccp, ?_⟩
    · intro hx
      by_cases hq : next_pointer_value N h = t
      · exact hq
      · rw [if_neg hq] at hx
        exact absurd hx (by simp)
    · have hsucc : occ N (⟨buf, false, h, t⟩ : RingBuffer α) =
          (occ N (⟨buf, false, h, t⟩ : RingBuffer α) - 1) + 1 := by omega
      show (List.range (occ N (⟨buf, false, h, t⟩ : RingBuffer α))).map
          (fun j => buf (wrapIdx N h j)) = buf h ::
        (List.range (occ N (⟨buf, (if next_pointer_value N h = t then true
            else false), next_pointer_value N h, t⟩ : RingBuffer α))).map
          (fun j => buf (wrapIdx N (next_pointer_value N h) j))
      rw [hoccp, hsucc, List.range_succ_eq_map, List.map_cons, List.map_map]
      congr 1
      · rw [wrapIdx_zero N h hh]
      · refine map_range_congr _ _ _ (fun j hj => ?_)
        show buf (wrapIdx N h (Nat.succ j)) =
          buf (wrapIdx N (next_pointer_value N h) j)
        rw [Nat.succ_eq_add_one, wrapIdx_succ N h j hh]
        have hle := occ_le N (⟨buf, false, h, t⟩ : RingBuffer α) ⟨hh, ht, by simp⟩
        omega
  · exfalso
    simp [occ] at hocc

lemma init_Inv (N : Nat) (z : α) (hN : 0 < N) : Inv N (RingBuffer.init z) :=
  ⟨hN, hN, fun _ => rfl⟩

lemma init_occ (N : Nat) (z : α) : occ N (RingBuffer.init z) = 0 := by
  simp [occ, RingBuffer.init]

lemma init_toList (N : Nat) (z : α) : toList N (RingBuffer.init z) = [] := by
  simp [toList, init_occ]

lemma pushSeq_ok (N : Nat) (vs : List α) :
    ∀ rb : RingBuffer α, Inv N rb → occ N rb + vs.length ≤ N →
      ∃ rb2, pushSeq N rb vs = some rb2 ∧ Inv N rb2 ∧
        occ N rb2 = occ N rb + vs.length ∧
        toList N rb2 = toList N rb ++ vs := by
  induction vs with
  | nil =>
    intro rb hInv _
    exact ⟨rb, rfl, hInv, by simp, by simp⟩
  | cons v vs ih =>
    intro rb hInv hlen
    simp only [List.length_cons] at hlen
    obtain ⟨hok, hInv2, hocc2, hlist2⟩ :=
      push_ok N rb v hInv (by omega)
    obtain ⟨rb3, hseq, hInv3, hocc3, hlist3⟩ :=
      ih (push_value N rb v).2 hInv2 (by omega)
    refine ⟨rb3, ?_, hInv3, by simp only [List.length_cons]; omega, ?_⟩
    · show pushSeq N rb (v :: vs) = some rb3
      unfold pushSeq
      rcases hp : push_value N rb v with ⟨r, rb2⟩
      rw [hp] at hok hseq
      simp only at hok hseq
      rw [hok]
      exact hseq
    · rw [hlist3, hlist2, List.append_assoc]
      rfl

lemma pushSeq_some (N : Nat) (vs : List α) :
    ∀ rb rb2 : RingBuffer α, Inv N rb → pushSeq N rb vs = some rb2 →
      Inv N rb2 ∧ occ N rb2 = occ N rb + vs.length ∧
        toList N rb2 = toList N rb ++ vs := by
  induction vs with
  | nil =>
    intro rb rb2 hInv hseq
    have : rb = rb2 := by
      simpa [pushSeq] using hseq
    subst this
    exact ⟨hInv, by simp, by simp⟩
  | cons v vs ih =>
    intro rb rb2 hInv hseq
    unfold pushSeq at hseq
    rcases hp : push_value N rb v with ⟨r, rbm⟩
    rw [hp] at hseq
    rcases r with err | u
    · exact absurd hseq (by simp)
    · simp only at hseq
      have hocc : occ N rb < N := by
        by_contra hfull
        have hov : is_overflow rb = true :=
          (overflow_iff N rb hInv).mpr (by have := occ_le N rb hInv; omega)
        rw [push_value, if_pos hov] at hp
        cases hp
      obtain ⟨hok, hInv2, hocc2, hlist2⟩ := push_ok N rb v hInv hocc
      rw [hp] at hok hInv2 hocc2 hlist2
      simp only at hok hInv2 hocc2 hlist2
      obtain ⟨hInv3, hocc3, hlist3⟩ := ih rbm rb2 hInv2 hseq
      refine ⟨hInv3, ?_, ?_⟩
      · rw [hocc3, hocc2]
        simp only [List.length_cons]
        omega
      · rw [hlist3, hlist2, List.append_assoc]
        rfl

lemma popN_ok (N : Nat) (k : Nat) :
    ∀ rb : RingBuffer α, Inv N rb → k ≤ occ N rb →
      (popN N rb k).1 = ((toList N rb).take k).map some ∧
      Inv N (popN N rb k).2 ∧
      occ N (popN N rb k).2 = occ N rb - k ∧
      toList N (popN N rb k).2 = (toList N rb).drop k := by
  induction k with
  | zero =>
    intro rb hInv _
    exact ⟨by simp [popN], hInv, by simp [popN], by simp [popN]⟩
  | succ k ih =>
    intro rb hInv hk
    obtain ⟨hfst, hInv2, hocc2, hlist2⟩ := pop_ok N rb hInv (by omega)
    obtain ⟨ih1, ih2, ih3, ih4⟩ :=
      ih (next_value N rb).2 hInv2 (by omega)
    have hstep : popN N rb (k + 1) =
        ((next_value N rb).1 :: (popN N (next_value N rb).2 k).1,
          (popN N (next_value N rb).2 k).2) := rfl
    rw [hstep]
    refine ⟨?_, ih2, by simp only; omega, ?_⟩
    · simp only [hfst, ih1, hlist2, List.take_succ_cons, List.map_cons]
    · simp only [ih4, hlist2, List.drop_succ_cons]

lemma SpecInv_not_empty_state (N : Nat) (buf2 : Nat → α) (h2 t2 : Nat)
    (hh : h2 < N) (ht : t2 < N) :
    SpecInv N (⟨buf2, false, h2, t2⟩ : RingBuffer α) := by
  refine ⟨?_, hh, ht, ?_, ?_⟩
  · simp only [occ, Bool.false_eq_true, if_false]
    split_ifs <;> omega
  · simp only [occ, Bool.false_eq_true, if_false]
    constructor
    · intro hx
      exact absurd hx (by simp)
    · intro hx
      exfalso
      revert hx
      split_ifs <;> omega
  · simp only [is_overflow, occ, Bool.not_false, Bool.true_and, beq_iff_eq,
      Bool.false_eq_true, if_false]
    constructor
    · intro hx
      split_ifs <;> omega
    · intro hx
      revert hx
      split_ifs <;> intro <;> omega

lemma SpecInv_empty_state (N : Nat) (buf2 : Nat → α) (h2 t2 : Nat)
    (hh : h2 < N) (ht : t2 < N) :
    SpecInv N (⟨buf2, true, h2, t2⟩ : RingBuffer α) := by
  have h0 : occ N (⟨buf2, true, h2, t2⟩ : RingBuffer α) = 0 := by simp [occ]
  refine ⟨by omega, hh, ht, by simp [h0], ?_⟩
  rw [h0]
  simp only [is_overflow, Bool.not_true, Bool.false_and]
  constructor
  · intro hx
    exact absurd hx (by simp)
  · intro hx
    exfalso
    omega

lemma SpecInv_push (N : Nat) (rb : RingBuffer α) (v : α)
    (hS : SpecInv N rb) : SpecInv N (push_value N rb v).2 := by
  obtain ⟨ho, hh, ht, hef, hff⟩ := hS
  by_cases hov : is_overflow rb = true
  · rw [push_value, if_pos hov]
    exact ⟨ho, hh, ht, hef, hff⟩
  · rw [push_value, if_neg hov]
    exact SpecInv_not_empty_state N _ rb.head (next_pointer_value N rb.tail)
      hh (by rw [next_pointer_value_eq]; split_ifs <;> omega)

lemma SpecInv_pop (N : Nat) (rb : RingBuffer α)
    (hS : SpecInv N rb) : SpecInv N (next_value N rb).2 := by
  obtain ⟨ho, hh, ht, hef, hff⟩ := hS
  cases hE : rb.is_empty
  · rw [next_value_not_empty N rb hE]
    have hh2 : next_pointer_value N rb.head < N := by
      rw [next_pointer_value_eq]
      split_ifs <;> omega
    rw [hE]
    by_cases hq : next_pointer_value N rb.head = rb.tail
    · rw [if_pos hq]
      exact SpecInv_empty_state N _ _ _ hh2 ht
    · rw [if_neg hq]
      exact SpecInv_not_empty_state N _ _ _ hh2 ht
  · rw [next_value_of_empty N rb hE]
    exact ⟨ho, hh, ht, hef, hff⟩

/-- C1 (code bug): the layout `RingBuffer::new` passes to the allocator is
`Layout::from_size_align(N, stride)`, i.e. it requests only `N` bytes,
not `N × stride`.  At `size_of T = 4`, `N = 4` the stride is 4 and
`N × stride = 16`, yet the requested layout size is 4. -/
theorem layout_size_is_capacity_not_bytes :
    (new_layout 4 4).map Layout.size = some 4 ∧
    4 * next_power_of_two 4 = 16 ∧
    (new_layout 4 4).map Layout.size ≠ some (4 * next_power_of_two 4) := by
  decide

/-- C2 counterexample: for a zero-sized element type construction does
not fail — Rust defines `0_usize.checked_next_power_of_two() = Some(1)`,
so `new` with `N = 4` returns `Ok` (layout of size 4, alignment 1)
rather than `InitializationLayoutError`. -/
theorem zero_sized_new_not_layout_error :
    ring_buffer_new 0 4 (0 : Nat) =
      Except.ok (⟨4, 1⟩, RingBuffer.init 0) := rfl

/-- C2 amended: for a zero-sized element type the stride is 1 and
construction succeeds for every capacity `N` that fits the layout check
(`N ≤ isize::MAX`); no `InitializationLayoutError` is produced. -/
theorem zero_sized_new_ok (N : Nat) (hN : N ≤ 2 ^ 63 - 1) :
    ring_buffer_new 0 N (0 : Nat) =
      Except.ok (⟨N, 1⟩, RingBuffer.init 0) := by
  have h1 : checked_next_power_of_two 0 = some 1 := rfl
  have h2 : layout_from_size_align N 1 = some ⟨N, 1⟩ := by
    unfold layout_from_size_align
    rw [if_pos ⟨by omega, rfl, by omega⟩]
  have h3 : new_layout 0 N = some ⟨N, 1⟩ := by
    unfold new_layout
    rw [h1]
    exact h2
  unfold ring_buffer_new
  rw [h3]

/-- Witness for the amended C2 at `N = 4`. -/
theorem zero_sized_new_ok_w :
    ring_buffer_new 0 4 (0 : Nat) =
      Except.ok (⟨4, 1⟩, RingBuffer.init 0) :=
  zero_sized_new_ok 4 (by decide)

/-- C3: pushing any value `v` into a full buffer (empty flag clear and
`head = tail`) returns `OverflowError v` carrying exactly the rejected
value and leaves the whole state unchanged, so any subsequent pop
sequence observes exactly the values it would have observed before. -/
theorem push_full_rejects (N : Nat) (rb : RingBuffer Nat) (v : Nat)
    (h1 : rb.is_empty = false) (h2 : rb.head = rb.tail) :
    push_value N rb v =
      (Except.error (RingBufferError.OverflowError v), rb) ∧
    ∀ k, (popN N (push_value N rb v).2 k).1 = (popN N rb k).1 := by
  have hov : is_overflow rb = true := by
    simp [is_overflow, h1, h2]
  have hpp : push_value N rb v =
      (Except.error (RingBufferError.OverflowError v), rb) := by
    rw [push_value, if_pos hov]
  exact ⟨hpp, fun k => by rw [hpp]⟩

/-- Witness for C3 at a concrete full capacity-2 buffer. -/
theorem push_full_rejects_w :
    push_value 2 (⟨fun _ => 7, false, 0, 0⟩ : RingBuffer Nat) 5 =
      (Except.error (RingBufferError.OverflowError 5),
        (⟨fun _ => 7, false, 0, 0⟩ : RingBuffer Nat)) ∧
    ∀ k, (popN 2
        (push_value 2 (⟨fun _ => 7, false, 0, 0⟩ : RingBuffer Nat) 5).2 k).1 =
      (popN 2 (⟨fun _ => 7, false, 0, 0⟩ : RingBuffer Nat) k).1 :=
  push_full_rejects 2 ⟨fun _ => 7, false, 0, 0⟩ 5 rfl rfl

/-- C4: for positive capacity `N`, from any state satisfying the
structural invariant, pushing any `N - occupied` values succeeds and the
very next push fails with an overflow error carrying the rejected value
(so exactly `N` pushes fit from empty, and the `(N+1)`-th fails,
including `N = 1`). -/
theorem capacity_boundary_exact_fill (N : Nat) (rb : RingBuffer Nat)
    (vs : List Nat) (_hN : 0 < N) (hInv : Inv N rb)
    (hlen : vs.length = N - occ N rb) :
    ∃ rb2, pushSeq N rb vs = some rb2 ∧
      ∀ w, push_value N rb2 w =
        (Except.error (RingBufferError.OverflowError w), rb2) := by
  have hle := occ_le N rb hInv
  obtain ⟨rb2, hseq, hInv2, hocc2, _⟩ :=
    pushSeq_ok N vs rb hInv (by omega)
  refine ⟨rb2, hseq, fun w => ?_⟩
  have hfull : is_overflow rb2 = true :=
    (overflow_iff N rb2 hInv2).mpr (by omega)
  rw [push_value, if_pos hfull]

/-- Witness for C4 at the `N = 1` edge case: one push fits, the second
fails. -/
theorem capacity_boundary_exact_fill_w :
    ∃ rb2, pushSeq 1 (RingBuffer.init (0 : Nat)) [5] = some rb2 ∧
      ∀ w, push_value 1 rb2 w =
        (Except.error (RingBufferError.OverflowError w), rb2) :=
  capacity_boundary_exact_fill 1 (RingBuffer.init 0) [5] (by decide)
    (init_Inv 1 0 (by decide)) (by rw [init_occ]; rfl)

/-- C5: if `k` values are pushed into a fresh buffer and no push reports
an overflow, then the first `k` calls to `next_value` return `some` of
exactly those values in push order (FIFO). -/
theorem fifo_push_pop_order (N : Nat) (z : Nat) (vs : List Nat)
    (rb2 : RingBuffer Nat)
    (hpush : pushSeq N (RingBuffer.init z) vs = some rb2) :
    (popN N rb2 vs.length).1 = vs.map some := by
  rcases Nat.eq_zero_or_pos N with hN | hN
  · subst hN
    rcases vs with _ | ⟨v, _ | ⟨w, rest⟩⟩
    · have hrb : RingBuffer.init z = rb2 := by
        simpa [pushSeq] using hpush
      subst hrb
      rfl
    · have hcomp : pushSeq 0 (RingBuffer.init z) [v] =
          some (⟨fun i => if i = 0 then v else z, false, 0, 0⟩ :
            RingBuffer Nat) := rfl
      rw [hcomp] at hpush
      have hrb := Option.some.inj hpush
      subst hrb
      rfl
    · have hcomp : pushSeq 0 (RingBuffer.init z) (v :: w :: rest) =
          none := rfl
      rw [hcomp] at hpush
      exact Option.noConfusion hpush
  · have hInv := init_Inv N z hN
    obtain ⟨hInv2, hocc2, hlist2⟩ := pushSeq_some N vs _ rb2 hInv hpush
    rw [init_occ] at hocc2
    rw [init_toList, List.nil_append] at hlist2
    obtain ⟨h1, _, _, _⟩ := popN_ok N vs.length rb2 hInv2 (by omega)
    rw [h1, hlist2, List.take_length]

/-- Witness for C5: three values pushed into a capacity-4 buffer come
back in order. -/
theorem fifo_push_pop_order_w :
    (popN 4 ((pushSeq 4 (RingBuffer.init (0 : Nat)) [1, 2, 3]).getD
      (RingBuffer.init 0)) (List.length [1, 2, 3])).1 =
      [1, 2, 3].map some :=
  fifo_push_pop_order 4 0 [1, 2, 3] _ rfl

/-- C6: `new` establishes the invariants (`head = tail = 0`, empty flag
set) and both `push_value` and `next_value` preserve them: the occupied
count stays in `[0, N]`, `head` and `tail` stay in `[0, N)`, the empty
flag holds iff the occupied count is 0, and the buffer is full
(`is_overflow`, i.e. flag clear and `head = tail`) iff the occupied
count is `N`.  The specification's data model fixes the capacity to be
positive. -/
theorem invariants_preserved (N : Nat) (z : Nat) (hN : 0 < N) :
    SpecInv N (RingBuffer.init z) ∧
    (RingBuffer.init z).head = 0 ∧ (RingBuffer.init z).tail = 0 ∧
    (RingBuffer.init z).is_empty = true ∧
    (∀ (rb : RingBuffer Nat) (v : Nat), SpecInv N rb →
      SpecInv N (push_value N rb v).2) ∧
    (∀ rb : RingBuffer Nat, SpecInv N rb →
      SpecInv N (next_value N rb).2) :=
  ⟨SpecInv_empty_state N (fun _ => z) 0 0 hN hN, rfl, rfl, rfl,
    fun rb v hS => SpecInv_push N rb v hS,
    fun rb hS => SpecInv_pop N rb hS⟩

/-- Witness for C6 at `N = 4`. -/
theorem invariants_preserved_w :
    SpecInv 4 (RingBuffer.init (0 : Nat)) ∧
    (RingBuffer.init (0 : Nat)).head = 0 ∧
    (RingBuffer.init (0 : Nat)).tail = 0 ∧
    (RingBuffer.init (0 : Nat)).is_empty = true ∧
    (∀ (rb : RingBuffer Nat) (v : Nat), SpecInv 4 rb →
      SpecInv 4 (push_value 4 rb v).2) ∧
    (∀ rb : RingBuffer Nat, SpecInv 4 rb →
      SpecInv 4 (next_value 4 rb).2) :=
  invariants_preserved 4 0 (by decide)

/-- C7: the shared advancement rule maps a valid slot index `i < N` to
`i + 1` when `i < N - 1` and wraps the last slot `N - 1` to `0`. -/
theorem next_position_rule (N i : Nat) (h : i < N) :
    next_pointer_value N i = (if i < N - 1 then i + 1 else 0) ∧
    next_pointer_value N (N - 1) = 0 := by
  rw [next_pointer_value_eq, next_pointer_value_eq]
  constructor
  · split_ifs <;> omega
  · rw [if_pos (by omega)]

/-- Witness for C7 at `N = 4`, `i = 2`. -/
theorem next_position_rule_w :
    next_pointer_value 4 2 = (if 2 < 4 - 1 then 2 + 1 else 0) ∧
    next_pointer_value 4 (4 - 1) = 0 :=
  next_position_rule 4 2 (by decide)

/-- C8: whenever the empty flag is set `next_value` returns `none` and
leaves the state unchanged; in particular a freshly constructed buffer
pops `none`, and after pushing `k ≤ N` values into a fresh buffer and
popping `k` times, a further pop returns `none` without mutation. -/
theorem pop_empty_noop (N : Nat) (rb : RingBuffer Nat)
    (h : rb.is_empty = true) :
    next_value N rb = (none, rb) ∧
    next_value N (RingBuffer.init (0 : Nat)) = (none, RingBuffer.init 0) ∧
    ∀ (z : Nat) (vs : List Nat) (rb2 : RingBuffer Nat), vs.length ≤ N →
      pushSeq N (RingBuffer.init z) vs = some rb2 →
      next_value N (popN N rb2 vs.length).2 =
        (none, (popN N rb2 vs.length).2) := by
  refine ⟨next_value_of_empty N rb h, next_value_of_empty N _ rfl, ?_⟩
  intro z vs rb2 hlen hpush
  rcases Nat.eq_zero_or_pos N with hN | hN
  · subst hN
    have hvs : vs = [] := by
      cases vs with
      | nil => rfl
      | cons a l => simp at hlen
    subst hvs
    have hrb : RingBuffer.init z = rb2 := by
      simpa [pushSeq] using hpush
    subst hrb
    exact next_value_of_empty 0 _ rfl
  · have hInv := init_Inv N z hN
    obtain ⟨hInv2, hocc2, _⟩ := pushSeq_some N vs _ rb2 hInv hpush
    rw [init_occ] at hocc2
    obtain ⟨_, hInv3, hocc3, _⟩ := popN_ok N vs.length rb2 hInv2 (by omega)
    have hemp : (popN N rb2 vs.length).2.is_empty = true :=
      empty_of_occ_zero N _ hInv3 (by omega)
    exact next_value_of_empty N _ hemp

/-- Witness for C8 on a fresh capacity-4 buffer. -/
theorem pop_empty_noop_w :
    next_value 4 (RingBuffer.init (17 : Nat)) =
      (none, RingBuffer.init 17) ∧
    next_value 4 (RingBuffer.init (0 : Nat)) = (none, RingBuffer.init 0) ∧
    ∀ (z : Nat) (vs : List Nat) (rb2 : RingBuffer Nat), vs.length ≤ 4 →
      pushSeq 4 (RingBuffer.init z) vs = some rb2 →
      next_value 4 (popN 4 rb2 vs.length).2 =
        (none, (popN 4 rb2 vs.length).2) :=
  pop_empty_noop 4 (RingBuffer.init 17) rfl

/-- C9: the capacity-4 reuse scenario — push 32, 2, 43, 46 (all
succeed), a fifth push of 33 fails as full and mutates nothing, two pops
yield 32 then 2, a push of 99 then succeeds (reusing the freed slot
across the wraparound boundary), two further pops yield 43 then 46, and
the next pop yields 99. -/
theorem reuse_after_partial_drain :
    pushSeq 4 (RingBuffer.init (0 : Nat)) [32, 2, 43, 46] = some c9s4 ∧
    push_value 4 c9s4 33 =
      (Except.error (RingBufferError.OverflowError 33), c9s4) ∧
    (popN 4 c9s4 2).1 = [some 32, some 2] ∧
    (push_value 4 c9s6 99).1 = Except.ok () ∧
    (popN 4 c9s7 2).1 = [some 43, some 46] ∧
    (next_value 4 c9s8).1 = some 99 :=
  ⟨rfl, rfl, rfl, rfl, rfl, rfl⟩

/-- C10: with capacity `N = 0` construction still returns `Ok` (shown
for a 1-byte element type), and the resulting buffer accepts exactly one
successful push before the next push fails with an overflow error: the
advancement rule wraps the tail straight back to the start, so a
capacity-0 buffer behaves like capacity 1. -/
theorem capacity_zero_accepts_one_push (z v w : Nat) :
    ring_buffer_new 1 0 z = Except.ok (⟨0, 1⟩, RingBuffer.init z) ∧
    (push_value 0 (RingBuffer.init z) v).1 = Except.ok () ∧
    (push_value 0 (push_value 0 (RingBuffer.init z) v).2 w).1 =
      Except.error (RingBufferError.OverflowError w) :=
  ⟨rfl, rfl, rfl⟩

end LLRingBuff
